import Mathlib

/-!
Verification of the qCVS quote-extraction tool.

The Go program has two source files: `main.go` (sentence splitter, quote
verifier, CSV writer) and `rand/random_quote.go` (CSV reader / sampler).
This file gives a shallow embedding of those functions over `List Char` /
`String` and proves the specified properties about them.
-/

namespace QCVS

/-- The `Quote` structure of `main.go` (same shape in `rand/random_quote.go`). -/
structure Quote where
  Text : String
  Author : String
  ContextBefore : String
  ContextAfter : String
deriving DecidableEq, Repr

/-! ## Go `unicode.IsSpace` and `strings.TrimSpace` -/

/-- Go's `unicode.IsSpace`: the Unicode White_Space property. -/
def isGoSpace (c : Char) : Bool :=
  decide (('\u0009' ≤ c ∧ c ≤ '\u000D') ∨ c = ' ' ∨ c = '\u0085' ∨ c = '\u00A0' ∨
    c = '\u1680' ∨ ('\u2000' ≤ c ∧ c ≤ '\u200A') ∨ c = '\u2028' ∨ c = '\u2029' ∨
    c = '\u202F' ∨ c = '\u205F' ∨ c = '\u3000')

/-- Drop leading and trailing white space from a character list. -/
def trimChars (l : List Char) : List Char :=
  ((l.dropWhile (fun c => isGoSpace c)).reverse.dropWhile (fun c => isGoSpace c)).reverse

/-- Go's `strings.TrimSpace`. -/
def trimSpace (s : String) : String := String.mk (trimChars s.toList)

/-! ## `splitSentences` (main.go lines 26-65) -/

/-- The bracket-nesting update of `splitSentences`: `parenLevel` is a Go `int`,
incremented on `(`, `[`, `{` and decremented on `)`, `]`, `}`. -/
def bracketStep (lvl : Int) (c : Char) : Int :=
  if c = '(' ∨ c = '[' ∨ c = '{' then lvl + 1
  else if c = ')' ∨ c = ']' ∨ c = '}' then lvl - 1
  else lvl

/-- Sentence-terminator test: `r == '.' || r == '!' || r == '?'`. -/
def isTerminator (c : Char) : Bool := decide (c = '.' ∨ c = '!' ∨ c = '?')

/-- The abbreviation guard of `splitSentences`: a `.` whose next character
exists and is neither space nor newline is treated as non-terminal.
(`text[i+1]` in Go reads the first byte of the next rune; for the ASCII
characters ' ' and '\n' this byte test coincides with the rune test.) -/
def abbrevGuard (c : Char) (rest : List Char) : Bool :=
  decide (c = '.') &&
    (match rest with
     | c2 :: _ => decide (c2 ≠ ' ' ∧ c2 ≠ '\n')
     | [] => false)

/-- The post-scan flush of `splitSentences`: trim the remaining buffer and
emit it if non-empty. -/
def flushTail (buf : List Char) : List String :=
  let s := trimSpace (String.mk buf)
  if s = "" then [] else [s]

/-- The character scan of `splitSentences`: current input, bracket level,
pending buffer. The rune is appended to the buffer first, the bracket level
is then updated, and a terminator at level zero (minus the abbreviation
case) flushes the trimmed buffer. -/
def splitGo : List Char → Int → List Char → List String
  | [], _, buf => flushTail buf
  | c :: rest, lvl, buf =>
    let lvl2 := bracketStep lvl c
    if isTerminator c && decide (lvl2 = 0) then
      if abbrevGuard c rest then
        splitGo rest lvl2 (buf ++ [c])
      else
        let s := trimSpace (String.mk (buf ++ [c]))
        if s = "" then splitGo rest lvl2 [] else s :: splitGo rest lvl2 []
    else splitGo rest lvl2 (buf ++ [c])

/-- `splitSentences` from main.go. -/
def splitSentences (text : String) : List String := splitGo text.toList 0 []

/-! ## `verifyAndExtractContext` (main.go lines 68-88) -/

/-- Go's `strings.Contains s sub`: `sub` occurs as a contiguous substring. -/
def strContains (s sub : String) : Bool := decide (sub.toList <:+: s.toList)

/-- Go's `strings.Join xs " "`. -/
def joinSp : List String → String
  | [] => ""
  | [x] => x
  | x :: y :: xs => x ++ " " ++ joinSp (y :: xs)

/-- The search loop of `verifyAndExtractContext`: index of the first sentence
containing the quote. -/
def findMatchIdx (quote : String) : List String → Option Nat
  | [] => none
  | s :: rest =>
    if strContains s quote then some 0
    else (findMatchIdx quote rest).map (fun n => n + 1)

/-- `verifyAndExtractContext` from main.go. The second component models the
Go `bool` result. `start := i - 2` clamped at 0 (Nat subtraction), and
`stop := min (i+3) len` mirror the two clamping `if`s. -/
def verifyAndExtractContext (sentences : List String) (quote author : String) :
    Quote × Bool :=
  match findMatchIdx quote sentences with
  | some i =>
    let start := i - 2
    let stop := min (i + 3) sentences.length
    (⟨quote, author,
      joinSp ((sentences.drop start).take (i - start)),
      joinSp ((sentences.drop (i + 1)).take (stop - (i + 1)))⟩, true)
  | none => (⟨"", "", "", ""⟩, false)

/-! ## Properties of the splitter -/

/-- A run of characters along which the bracket-nesting counter never
returns to zero (checked after each character's update, as in the scan). -/
def neverZero : Int → List Char → Bool
  | _, [] => true
  | lvl, c :: rest => decide (bracketStep lvl c ≠ 0) && neverZero (bracketStep lvl c) rest

theorem findMatchIdx_eq_none (quote : String) (l : List String)
    (h : ∀ s ∈ l, strContains s quote = false) : findMatchIdx quote l = none := by
  induction l with
  | nil => rfl
  | cons s rest ih =>
    have h0 : strContains s quote = false := h s (List.mem_cons_self s rest)
    have hr := ih (fun x hx => h x (List.mem_cons_of_mem s hx))
    simp [findMatchIdx, h0, hr]

theorem findMatchIdx_eq_some (quote : String) :
    ∀ (l : List String) (i : Nat), i < l.length →
      strContains (l.getD i "") quote = true →
      (∀ j, j < i → strContains (l.getD j "") quote = false) →
      findMatchIdx quote l = some i := by
  intro l
  induction l with
  | nil => intro i hi; simp at hi
  | cons s rest ih =>
    intro i hi hm hf
    cases i with
    | zero =>
      simp only [List.getD_cons_zero] at hm
      simp [findMatchIdx, hm]
    | succ k =>
      have h0 : strContains s quote = false := by
        have := hf 0 (Nat.succ_pos k)
        simpa using this
      have hk : findMatchIdx quote rest = some k := by
        refine ih k (by simpa using hi) (by simpa using hm) ?_
        intro j hj
        have := hf (j + 1) (Nat.succ_lt_succ hj)
        simpa using this
      simp [findMatchIdx, h0, hk]

/-- Claim C2: a `.` at bracket depth zero whose next character exists and is
neither a space nor a newline never ends a sentence — the scan keeps
accumulating into the same pending buffer; in particular the first period of
"т.е. далее" produces no split there. -/
theorem splitGo_abbrev_no_split :
    (∀ (c2 : Char) (rest buf : List Char), c2 ≠ ' ' → c2 ≠ '\n' →
      splitGo ('.' :: c2 :: rest) 0 buf = splitGo (c2 :: rest) 0 (buf ++ ['.'])) ∧
    splitSentences "т.е. далее" = ["т.е.", "далее"] := by
  constructor
  · intro c2 rest buf h1 h2
    have hb : bracketStep 0 '.' = 0 := by decide
    have ht : isTerminator '.' = true := by decide
    have hg : abbrevGuard '.' (c2 :: rest) = true := by
      simp [abbrevGuard, h1, h2]
    simp [splitGo, hb, ht, hg]
  · decide

/-- Witness for `splitGo_abbrev_no_split` at a concrete input. -/
theorem splitGo_abbrev_no_split_witness :
    splitGo ['.', 'x'] 0 [] = splitGo ['x'] 0 ([] ++ ['.']) :=
  splitGo_abbrev_no_split.1 'x' [] [] (by decide) (by decide)

/-- Claim C3: once the bracket counter is non-zero and (after every further
update) never returns to zero, no terminator in the remaining input ends a
sentence: the scan just accumulates, and the only further output is the
final trimmed flush of the whole remainder. -/
theorem splitGo_unbalanced_suppression (rest : List Char) :
    ∀ (lvl : Int) (buf : List Char), neverZero lvl rest = true →
      splitGo rest lvl buf = flushTail (buf ++ rest) := by
  induction rest with
  | nil => intro lvl buf _; simp [splitGo]
  | cons c rest ih =>
    intro lvl buf h
    rw [neverZero, Bool.and_eq_true, decide_eq_true_eq] at h
    obtain ⟨h1, h2⟩ := h
    have hcond : (isTerminator c && decide (bracketStep lvl c = 0)) = false := by
      simp [h1]
    rw [splitGo]
    simp only [hcond, Bool.false_eq_true, if_false]
    rw [ih (bracketStep lvl c) (buf ++ [c]) h2]
    simp

/-- Witness for `splitGo_unbalanced_suppression` at a concrete input. -/
theorem splitGo_unbalanced_suppression_witness :
    splitGo ("(a. b!".toList) 0 [] = flushTail ([] ++ "(a. b!".toList) :=
  splitGo_unbalanced_suppression ("(a. b!".toList) 0 [] (by decide)

/-- Claim C7: the bracketed example yields exactly one sentence — neither
period inside the parentheses splits, and splitting resumes after `)` so the
whole input is emitted as one sentence. -/
theorem splitSentences_paren_example :
    splitSentences "Он сказал (это. правда.) всё." =
      ["Он сказал (это. правда.) всё."] := by
  decide

theorem splitGo_segments (input : List Char) :
    ∀ (lvl : Int) (buf : List Char),
      ∃ segs : List (List Char), buf ++ input = segs.flatten ∧
        splitGo input lvl buf =
          (segs.map (fun b => trimSpace (String.mk b))).filter
            (fun s => decide (s ≠ "")) := by
  induction input with
  | nil =>
    intro lvl buf
    refine ⟨[buf], by simp, ?_⟩
    by_cases hs : trimSpace (String.mk buf) = "" <;>
      simp [splitGo, flushTail, hs]
  | cons c rest ih =>
    intro lvl buf
    by_cases hA : (isTerminator c && decide (bracketStep lvl c = 0)) = true
    · by_cases hB : abbrevGuard c rest = true
      · obtain ⟨segs, h1, h2⟩ := ih (bracketStep lvl c) (buf ++ [c])
        refine ⟨segs, ?_, ?_⟩
        · rw [← h1]; simp
        · rw [splitGo]; simp only [hA, if_true, hB, h2]
      · obtain ⟨segs, h1, h2⟩ := ih (bracketStep lvl c) []
        simp only [List.nil_append] at h1
        refine ⟨(buf ++ [c]) :: segs, ?_, ?_⟩
        · rw [List.flatten_cons, ← h1]; simp
        · rw [splitGo]
          simp only [hA, if_true, hB, Bool.false_eq_true, if_false, h2]
          by_cases hs : trimSpace (String.mk (buf ++ [c])) = "" <;>
            simp [hs]
    · obtain ⟨segs, h1, h2⟩ := ih (bracketStep lvl c) (buf ++ [c])
      refine ⟨segs, ?_, ?_⟩
      · rw [← h1]; simp
      · rw [splitGo]
        simp only [hA, Bool.false_eq_true, if_false, h2]

/-- Claim C6: the sentences are, in order, the trimmed non-empty pieces of a
left-to-right decomposition of the input into contiguous segments; every
returned sentence is non-empty; the empty input yields the empty list. -/
theorem splitSentences_ordered (text : String) :
    (∃ segs : List (List Char), text.toList = segs.flatten ∧
        splitSentences text =
          (segs.map (fun b => trimSpace (String.mk b))).filter
            (fun s => decide (s ≠ ""))) ∧
    (splitSentences text).all (fun s => decide (s ≠ "")) = true ∧
    splitSentences "" = [] := by
  refine ⟨?_, ?_, rfl⟩
  · simpa using splitGo_segments text.toList 0 []
  · obtain ⟨segs, _, h2⟩ := splitGo_segments text.toList 0 []
    rw [splitSentences, h2, List.all_eq_true]
    intro s hs
    exact (List.mem_filter.mp hs).2

/-- Claim C5: when no sentence contains the quote, the verifier reports
not-found: the zero `Quote` together with `false`, and no other outcome. -/
theorem verify_not_found (sentences : List String) (quote author : String)
    (h : ∀ s ∈ sentences, strContains s quote = false) :
    verifyAndExtractContext sentences quote author = (⟨"", "", "", ""⟩, false) := by
  rw [verifyAndExtractContext, findMatchIdx_eq_none quote sentences h]

/-- Witness for `verify_not_found` at a concrete input. -/
theorem verify_not_found_witness :
    verifyAndExtractContext ["abc"] "zz" "au" = (⟨"", "", "", ""⟩, false) :=
  verify_not_found ["abc"] "zz" "au" (by decide)

/-- Claim C1: on the first matching sentence at index `i`, the verifier
returns the quote and author, `ContextBefore` is `sentences[max 0 (i-2) : i]`
joined by single spaces, `ContextAfter` is `sentences[i+1 : min (i+3) len]`
joined by single spaces; a match at index 0 has empty `ContextBefore` and a
match at the last index has empty `ContextAfter` (the matched sentence is in
neither window). -/
theorem verify_found (sentences : List String) (quote author : String)
    (i : Nat) (hi : i < sentences.length)
    (hm : strContains (sentences.getD i "") quote = true)
    (hfirst : ∀ j, j < i → strContains (sentences.getD j "") quote = false) :
    verifyAndExtractContext sentences quote author =
      (⟨quote, author,
        joinSp ((sentences.drop (i - 2)).take (i - (i - 2))),
        joinSp ((sentences.drop (i + 1)).take
          (min (i + 3) sentences.length - (i + 1)))⟩, true) ∧
    (i = 0 → (verifyAndExtractContext sentences quote author).1.ContextBefore = "") ∧
    (i + 1 = sentences.length →
      (verifyAndExtractContext sentences quote author).1.ContextAfter = "") := by
  have hidx := findMatchIdx_eq_some quote sentences i hi hm hfirst
  have hmain : verifyAndExtractContext sentences quote author =
      (⟨quote, author,
        joinSp ((sentences.drop (i - 2)).take (i - (i - 2))),
        joinSp ((sentences.drop (i + 1)).take
          (min (i + 3) sentences.length - (i + 1)))⟩, true) := by
    rw [verifyAndExtractContext, hidx]
  refine ⟨hmain, ?_, ?_⟩
  · intro h0
    subst h0
    rw [hmain]
    simp [joinSp]
  · intro hlen
    rw [hmain]
    have hmn : min (i + 3) sentences.length - (i + 1) = 0 := by
      rw [← hlen, Nat.min_eq_right (by omega)]
      omega
    simp [hmn, joinSp]

/-- Witness for `verify_found` at a concrete input. -/
theorem verify_found_witness :
    verifyAndExtractContext ["aa", "bb", "cc"] "b" "x" =
      (⟨"b", "x",
        joinSp (((["aa", "bb", "cc"] : List String).drop (1 - 2)).take (1 - (1 - 2))),
        joinSp (((["aa", "bb", "cc"] : List String).drop (1 + 1)).take
          (min (1 + 3) (["aa", "bb", "cc"] : List String).length - (1 + 1)))⟩, true) :=
  (verify_found ["aa", "bb", "cc"] "b" "x" 1 (by decide) (by decide)
    (by decide)).1

/-! ## CSV output (main.go `initCSV`, `appendToCSV`; Go `encoding/csv`
writer with `Comma = ';'`, `UseCRLF = false`) -/

/-- The field sanitization of `appendToCSV`: `strings.ReplaceAll f ";" ","`
followed by `strings.ReplaceAll _ "\n" " "` (single-character patterns, so a
character-wise map). -/
def sanitizeField (s : String) : String :=
  String.mk ((s.toList.map (fun c => if c = ';' then ',' else c)).map
    (fun c => if c = '\n' then ' ' else c))

/-- Go `csv.Writer.fieldNeedsQuotes` for `Comma = ';'`: quote a non-empty
field that is `\.`, contains `;`, `"`, CR or LF, or starts with a space. -/
def fieldNeedsQuotes (f : String) : Bool :=
  if f = "" then false
  else if f = "\\." then true
  else if f.toList.any (fun c => decide (c = ';' ∨ c = '"' ∨ c = '\r' ∨ c = '\n'))
    then true
  else
    match f.toList with
    | c :: _ => isGoSpace c
    | [] => false

/-- The quoted-field body written by Go's csv writer with `UseCRLF = false`:
each `"` doubled, CR and LF written through unchanged. -/
def escapeQuoted : List Char → List Char
  | [] => []
  | c :: rest =>
    if c = '"' then '"' :: '"' :: escapeQuoted rest else c :: escapeQuoted rest

/-- One field as written by Go's csv writer. -/
def writeField (f : String) : List Char :=
  if fieldNeedsQuotes f then '"' :: (escapeQuoted f.toList ++ ['"']) else f.toList

/-- Fields joined by the `;` delimiter. -/
def joinSemi : List (List Char) → List Char
  | [] => []
  | [x] => x
  | x :: y :: xs => x ++ ';' :: joinSemi (y :: xs)

/-- One record line as written by Go's csv writer (`UseCRLF = false`, so the
terminator is a bare LF). -/
def writeRecord (fields : List String) : List Char :=
  joinSemi (fields.map writeField) ++ ['\n']

/-- The line `appendToCSV` writes for one quote: the four sanitized fields. -/
def quoteLine (q : Quote) : List Char :=
  writeRecord [sanitizeField q.Text, sanitizeField q.Author,
    sanitizeField q.ContextBefore, sanitizeField q.ContextAfter]

/-- The bytes `appendToCSV` appends for a list of quotes. -/
def appendToCSVString (quotes : List Quote) : String :=
  String.mk (quotes.map quoteLine).flatten

/-- The header row written by `initCSV`. -/
def headerFields : List String :=
  ["Цитата", "Автор", "Контекст (До)", "Контекст (После)"]

/-- The file contents produced by `initCSV`: a UTF-8 BOM then the header
record. -/
def initCSVString : String := String.mk ('\uFEFF' :: writeRecord headerFields)

/-- Go `strings.TrimSuffix`. -/
def trimSuffix (s suffix : String) : String :=
  if suffix.toList <:+ s.toList then
    String.mk (s.toList.take (s.toList.length - suffix.toList.length))
  else s

/-- The output path computed by `processFile` (main.go line 190):
`strings.TrimSuffix(filePath, ".txt") + ".csv"`. -/
def deriveOutputPath (filePath : String) : String :=
  trimSuffix filePath ".txt" ++ ".csv"

/-! ## CSV input (`rand/random_quote.go` `readQuotesFromCSV`; Go
`encoding/csv` reader with `Comma = ';'`, `TrimLeadingSpace = true`,
`LazyQuotes = false`, default `FieldsPerRecord`) -/

/-- Go's `csv.Reader.readLine` normalizes every `\r\n` in the input to `\n`
(each `\r\n` sits at the end of a read line). -/
def normCRLF : List Char → List Char
  | [] => []
  | [c] => [c]
  | c1 :: c2 :: rest =>
    if c1 = '\r' ∧ c2 = '\n' then '\n' :: normCRLF rest
    else c1 :: normCRLF (c2 :: rest)

/-- A field accumulated in reverse, turned back into a string. -/
def mkField (fld : List Char) : String := String.mk fld.reverse

/-- Parser state of the csv reader: at a record boundary, at a field start
(leading space not yet consumed), inside an unquoted field, inside a quoted
field, or just after a closing quote inside a quoted field. -/
inductive CsvMode where
  | recStart : CsvMode
  | fieldStart (fields : List String) : CsvMode
  | unquoted (fields : List String) (fld : List Char) : CsvMode
  | quoted (fields : List String) (fld : List Char) : CsvMode
  | afterQuote (fields : List String) (fld : List Char) : CsvMode

/-- Dispatch on the first character of a field: `TrimLeadingSpace` skips
white space (a line's terminating LF is never reached by the trim with a
non-space ahead; an all-space rest-of-line yields an empty field, handled by
the LF branch), `"` opens a quoted field, `;` ends an empty field, LF ends
the record with an empty field, anything else starts an unquoted field. -/
def fieldCharStep (c : Char) (fields : List String) (acc : List (List String)) :
    CsvMode × List (List String) :=
  if isGoSpace c ∧ c ≠ '\n' then (CsvMode.fieldStart fields, acc)
  else if c = '"' then (CsvMode.quoted fields [], acc)
  else if c = ';' then (CsvMode.fieldStart (mkField [] :: fields), acc)
  else if c = '\n' then (CsvMode.recStart, (mkField [] :: fields).reverse :: acc)
  else (CsvMode.unquoted fields [c], acc)

/-- The csv read loop (`Comma = ';'`, `TrimLeadingSpace = true`,
`LazyQuotes = false`): blank lines at record boundaries are skipped; an
unquoted field ends at `;`, LF or end of input and may not contain `"`
(`ErrBareQuote`, modelled as `none`); a quoted field ends at a `"` followed
by `;`, LF or end of input, a doubled `""` is a literal quote, and any other
character after the closing quote — or end of input inside the quotes — is
an error (`ErrQuote`). -/
def csvRun : List Char → CsvMode → List (List String) →
    Option (List (List String))
  | [], CsvMode.recStart, acc => some acc.reverse
  | [], CsvMode.fieldStart fields, acc =>
    some (((mkField [] :: fields).reverse :: acc).reverse)
  | [], CsvMode.unquoted fields fld, acc =>
    some (((mkField fld :: fields).reverse :: acc).reverse)
  | [], CsvMode.quoted _ _, _ => none
  | [], CsvMode.afterQuote fields fld, acc =>
    some (((mkField fld :: fields).reverse :: acc).reverse)
  | c :: rest, CsvMode.recStart, acc =>
    if c = '\n' then csvRun rest CsvMode.recStart acc
    else csvRun rest (fieldCharStep c [] acc).1 (fieldCharStep c [] acc).2
  | c :: rest, CsvMode.fieldStart fields, acc =>
    csvRun rest (fieldCharStep c fields acc).1 (fieldCharStep c fields acc).2
  | c :: rest, CsvMode.unquoted fields fld, acc =>
    if c = ';' then csvRun rest (CsvMode.fieldStart (mkField fld :: fields)) acc
    else if c = '\n' then
      csvRun rest CsvMode.recStart ((mkField fld :: fields).reverse :: acc)
    else if c = '"' then none
    else csvRun rest (CsvMode.unquoted fields (c :: fld)) acc
  | c :: rest, CsvMode.quoted fields fld, acc =>
    if c = '"' then csvRun rest (CsvMode.afterQuote fields fld) acc
    else csvRun rest (CsvMode.quoted fields (c :: fld)) acc
  | c :: rest, CsvMode.afterQuote fields fld, acc =>
    if c = '"' then csvRun rest (CsvMode.quoted fields ('"' :: fld)) acc
    else if c = ';' then
      csvRun rest (CsvMode.fieldStart (mkField fld :: fields)) acc
    else if c = '\n' then
      csvRun rest CsvMode.recStart ((mkField fld :: fields).reverse :: acc)
    else none

/-- Go `csv.Reader.ReadAll` with the default `FieldsPerRecord = 0`: parse
all records; any record whose field count differs from the first record's
is `ErrFieldCount` and `ReadAll` returns an error (modelled as `none`). -/
def parseCSV (content : String) : Option (List (List String)) :=
  match csvRun (normCRLF content.toList) CsvMode.recStart [] with
  | none => none
  | some [] => some []
  | some (r :: rs) =>
    if rs.all (fun x => x.length == r.length) then some (r :: rs) else none

/-- One parsed record to a `Quote`: `record[0..3]`, skipped (with a warning)
when the record has fewer than 4 fields. -/
def recToQuote (r : List String) : Option Quote :=
  match r with
  | t :: a :: cb :: ca :: _ => some ⟨t, a, cb, ca⟩
  | _ => none

/-- The record-processing loop of `readQuotesFromCSV`: `records[1:]` panics
on an empty record list (modelled as `none`); otherwise every record after
the header with at least 4 fields becomes a quote, shorter ones are
skipped. -/
def readQuotesRecords (records : List (List String)) : Option (List Quote) :=
  match records with
  | [] => none
  | _ :: rest => some (rest.filterMap recToQuote)

/-- `readQuotesFromCSV` from rand/random_quote.go on given file contents:
parse, then skip the header and convert; `none` covers both a reader error
and the `records[1:]` panic. -/
def readQuotesFromCSV (content : String) : Option (List Quote) :=
  (parseCSV content).bind readQuotesRecords

/-- A field with no `;` and no newline — the class on which the
`appendToCSV` sanitization is the identity. -/
def cleanF (s : String) : Bool := s.toList.all (fun c => decide (c ≠ ';' ∧ c ≠ '\n'))

/-! ## Properties of the CSV layer -/

theorem mk_toList (s : String) : String.mk s.toList = s := rfl

theorem toList_append (a b : String) : (a ++ b).toList = a.toList ++ b.toList := rfl

/-- Claim C4 counterexample: for an input whose extension is not `.txt`, the
extension is not replaced — `.csv` is appended to the whole path. -/
theorem deriveOutputPath_counterexample :
    deriveOutputPath "book.md" = "book.md.csv" ∧
    deriveOutputPath "book.md" ≠ "book.csv" := by
  decide

/-- Claim C4 (amended): the output path is the input with a trailing `.txt`
suffix removed and `.csv` appended, so only `.txt` inputs have their
extension replaced; any other input keeps its extension and gets `.csv`
appended. -/
theorem deriveOutputPath_spec :
    (∀ base : String, deriveOutputPath (base ++ ".txt") = base ++ ".csv") ∧
    (∀ p : String, ¬ (".txt".toList <:+ p.toList) →
      deriveOutputPath p = p ++ ".csv") := by
  constructor
  · intro base
    have hto : (base ++ ".txt").toList = base.toList ++ ".txt".toList := rfl
    have hsuf : ".txt".toList <:+ (base ++ ".txt").toList := by
      rw [hto]; exact List.suffix_append _ _
    rw [deriveOutputPath, trimSuffix, if_pos hsuf]
    have hlen : (base ++ ".txt").toList.length - (".txt" : String).toList.length
        = base.toList.length := by
      rw [hto, List.length_append]
      simp
    rw [hlen, hto, List.take_left]
    rfl
  · intro p hp
    rw [deriveOutputPath, trimSuffix, if_neg hp]

/-- Witness for `deriveOutputPath_spec` at a concrete input. -/
theorem deriveOutputPath_spec_witness : deriveOutputPath "b.md" = "b.md.csv" :=
  deriveOutputPath_spec.2 "b.md" (by decide)

/-- Claim C10: `records[1:]` forces a non-empty record list (the empty list
panics, modelled as `none`); with at least one record, the result is exactly
the post-header records having at least 4 fields, shorter ones skipped, each
mapped to its first four fields. -/
theorem readQuotes_header_skip :
    readQuotesRecords [] = none ∧
    ∀ (hd : List String) (rest : List (List String)),
      readQuotesRecords (hd :: rest) =
        some ((rest.filter (fun r => decide (4 ≤ r.length))).map
          (fun r => ⟨r.getD 0 "", r.getD 1 "", r.getD 2 "", r.getD 3 ""⟩)) := by
  refine ⟨rfl, ?_⟩
  intro hd rest
  rw [readQuotesRecords]
  congr 1
  induction rest with
  | nil => rfl
  | cons r rs ih =>
    rcases r with _ | ⟨t, _ | ⟨a, _ | ⟨cb, _ | ⟨ca, tail⟩⟩⟩⟩ <;>
      simp [List.filterMap_cons, List.filter_cons, recToQuote, ih,
        Nat.le_add_left]

theorem sanitizeField_toList (s : String) :
    (sanitizeField s).toList =
      s.toList.map (fun c => if c = ';' then ',' else if c = '\n' then ' ' else c) := by
  have hfun : (fun c => if c = '\n' then ' ' else c) ∘
      (fun c => if c = ';' then ',' else c) =
      (fun c : Char => if c = ';' then ',' else if c = '\n' then ' ' else c) := by
    funext c
    by_cases h1 : c = ';'
    · simp [h1]
    · by_cases h2 : c = '\n' <;> simp [h1, h2]
  show (s.toList.map _).map _ = _
  rw [List.map_map, hfun]

theorem sanitize_no_nl (s : String) : '\n' ∉ (sanitizeField s).toList := by
  intro hmem
  rw [sanitizeField_toList] at hmem
  obtain ⟨c, _, hc⟩ := List.mem_map.mp hmem
  by_cases h1 : c = ';' <;> by_cases h2 : c = '\n' <;> simp_all

theorem sanitize_no_semi (s : String) : ';' ∉ (sanitizeField s).toList := by
  intro hmem
  rw [sanitizeField_toList] at hmem
  obtain ⟨c, _, hc⟩ := List.mem_map.mp hmem
  by_cases h1 : c = ';' <;> by_cases h2 : c = '\n' <;> simp_all

theorem escapeQuoted_no_nl (l : List Char) (h : '\n' ∉ l) :
    '\n' ∉ escapeQuoted l := by
  induction l with
  | nil => simp [escapeQuoted]
  | cons c rest ih =>
    rw [List.mem_cons, not_or] at h
    by_cases hq : c = '"' <;>
      simp [escapeQuoted, hq, h.1, ih h.2]

theorem writeField_no_nl (f : String) (h : '\n' ∉ f.toList) :
    '\n' ∉ writeField f := by
  rw [writeField]
  by_cases hq : fieldNeedsQuotes f = true
  · simp only [hq, if_true]
    intro hmem
    rcases List.mem_cons.mp hmem with hbad | hmem2
    · exact absurd hbad (by decide)
    · rcases List.mem_append.mp hmem2 with hE | hlast
      · exact escapeQuoted_no_nl f.toList h hE
      · simp at hlast
  · simp only [hq, Bool.false_eq_true, if_false]
    exact h

theorem joinSemi_mem {c : Char} :
    ∀ L : List (List Char), c ∈ joinSemi L → (∃ l ∈ L, c ∈ l) ∨ c = ';' := by
  intro L
  induction L with
  | nil => intro h; simp [joinSemi] at h
  | cons x xs ih =>
    cases xs with
    | nil =>
      intro h
      rw [joinSemi] at h
      exact Or.inl ⟨x, by simp, h⟩
    | cons y ys =>
      intro h
      rw [joinSemi, List.mem_append, List.mem_cons] at h
      rcases h with hx | hc | hrest
      · exact Or.inl ⟨x, by simp, hx⟩
      · exact Or.inr hc
      · rcases ih hrest with ⟨l, hl, hcl⟩ | hc
        · exact Or.inl ⟨l, by simp [hl], hcl⟩
        · exact Or.inr hc

theorem writeRecord_count (fields : List String)
    (h : ∀ f ∈ fields, '\n' ∉ f.toList) :
    (writeRecord fields).count '\n' = 1 ∧
    (writeRecord fields).getLast? = some '\n' := by
  have hbody : '\n' ∉ joinSemi (fields.map writeField) := by
    intro hmem
    rcases joinSemi_mem _ hmem with ⟨l, hl, hcl⟩ | hsemi
    · obtain ⟨f, hf, rfl⟩ := List.mem_map.mp hl
      exact writeField_no_nl f (h f hf) hcl
    · exact absurd hsemi (by decide)
  constructor
  · rw [writeRecord, List.count_append, List.count_eq_zero.mpr hbody]
    rfl
  · rw [writeRecord]
    simp

/-- Claim C8: `appendToCSV` writes, per quote, one record whose four fields
are the `Text`, `Author`, `ContextBefore`, `ContextAfter` with every `;`
replaced by `,` and every newline replaced by a space (the two replacements
acting character-wise), and every written record occupies exactly one
LF-terminated line. -/
theorem appendToCSV_sanitizes :
    (∀ s : String, (sanitizeField s).toList =
        s.toList.map (fun c => if c = ';' then ',' else if c = '\n' then ' ' else c)) ∧
    (∀ quotes : List Quote,
        (appendToCSVString quotes).toList = (quotes.map quoteLine).flatten) ∧
    (∀ q : Quote, (quoteLine q).count '\n' = 1 ∧
        (quoteLine q).getLast? = some '\n') := by
  refine ⟨sanitizeField_toList, fun _ => rfl, ?_⟩
  intro q
  rw [quoteLine]
  apply writeRecord_count
  intro f hf
  simp only [List.mem_cons, List.not_mem_nil, or_false] at hf
  rcases hf with rfl | rfl | rfl | rfl <;> exact sanitize_no_nl _

/-! ## Round trip: the reader re-parses what the writer emits -/

theorem not_needsQuotes_chars {f : String} (h : fieldNeedsQuotes f = false) :
    ∀ c ∈ f.toList, ¬(c = ';' ∨ c = '"' ∨ c = '\r' ∨ c = '\n') := by
  rw [fieldNeedsQuotes] at h
  by_cases h0 : f = ""
  · intro c hc
    rw [h0] at hc
    simp at hc
  · by_cases h1 : f = "\\."
    · rw [if_neg h0, if_pos h1] at h
      simp at h
    · rw [if_neg h0, if_neg h1] at h
      by_cases h2 : (f.toList.any
          (fun c => decide (c = ';' ∨ c = '"' ∨ c = '\r' ∨ c = '\n'))) = true
      · rw [if_pos h2] at h
        simp at h
      · intro c hc
        have := List.any_eq_false.mp ((Bool.not_eq_true _).mp h2) c hc
        simpa using this

theorem not_needsQuotes_head {f : String} (h : fieldNeedsQuotes f = false)
    (c : Char) (cs : List Char) (hf : f.toList = c :: cs) :
    isGoSpace c = false := by
  rw [fieldNeedsQuotes] at h
  have h0 : ¬ f = "" := by
    intro he
    rw [he] at hf
    simp at hf
  by_cases h1 : f = "\\."
  · rw [if_neg h0, if_pos h1] at h
    simp at h
  · rw [if_neg h0, if_neg h1] at h
    by_cases h2 : (f.toList.any
        (fun c => decide (c = ';' ∨ c = '"' ∨ c = '\r' ∨ c = '\n'))) = true
    · rw [if_pos h2] at h
      simp at h
    · rw [if_neg h2, hf] at h
      exact h

theorem mkField_rev (f : String) : mkField f.toList.reverse = f := by
  rw [mkField, List.reverse_reverse, mk_toList]

theorem csvRun_quoted_scan (l : List Char) :
    ∀ (tail : List Char) (fields : List String) (fld : List Char)
      (acc : List (List String)),
      csvRun (escapeQuoted l ++ tail) (CsvMode.quoted fields fld) acc =
        csvRun tail (CsvMode.quoted fields (l.reverse ++ fld)) acc := by
  induction l with
  | nil => intro tail fields fld acc; simp [escapeQuoted]
  | cons c rest ih =>
    intro tail fields fld acc
    by_cases hq : c = '"'
    · subst hq
      rw [escapeQuoted, if_pos rfl, List.cons_append, List.cons_append]
      rw [csvRun, if_pos rfl]
      rw [csvRun, if_pos rfl]
      rw [ih]
      simp [List.append_assoc]
    · rw [escapeQuoted, if_neg hq, List.cons_append]
      rw [csvRun, if_neg hq]
      rw [ih]
      simp [List.append_assoc]

theorem csvRun_unquoted_scan (l : List Char) :
    ∀ (tail : List Char) (fields : List String) (fld : List Char)
      (acc : List (List String)),
      (∀ c ∈ l, ¬(c = ';' ∨ c = '"' ∨ c = '\r' ∨ c = '\n')) →
      csvRun (l ++ tail) (CsvMode.unquoted fields fld) acc =
        csvRun tail (CsvMode.unquoted fields (l.reverse ++ fld)) acc := by
  induction l with
  | nil => intro tail fields fld acc _; simp
  | cons c rest ih =>
    intro tail fields fld acc h
    have hc := h c (List.mem_cons_self c rest)
    push_neg at hc
    obtain ⟨hc1, hc2, _, hc4⟩ := hc
    rw [List.cons_append, csvRun, if_neg hc1, if_neg hc4, if_neg hc2]
    rw [ih tail fields (c :: fld) acc (fun x hx => h x (List.mem_cons_of_mem c hx))]
    simp [List.append_assoc]

theorem csvRun_field_semi (f : String) (tl : List Char) (fields : List String)
    (acc : List (List String)) :
    csvRun (writeField f ++ ';' :: tl) (CsvMode.fieldStart fields) acc =
      csvRun tl (CsvMode.fieldStart (f :: fields)) acc := by
  rw [writeField]
  by_cases hq : fieldNeedsQuotes f = true
  · rw [if_pos hq, List.cons_append, List.append_assoc, List.singleton_append]
    rw [csvRun]
    rw [show fieldCharStep '"' fields acc = (CsvMode.quoted fields [], acc) by
      rw [fieldCharStep, if_neg (by decide), if_pos rfl]]
    rw [csvRun_quoted_scan, List.append_nil]
    rw [csvRun, if_pos rfl]
    rw [csvRun, if_neg (by decide), if_pos rfl, mkField_rev]
  · rw [if_neg hq]
    have hff : fieldNeedsQuotes f = false := (Bool.not_eq_true _).mp hq
    cases hfl : f.toList with
    | nil =>
      have hfe : f = "" := by rw [← mk_toList f, hfl]
      rw [List.nil_append, csvRun]
      rw [show fieldCharStep ';' fields acc =
          (CsvMode.fieldStart (mkField [] :: fields), acc) by
        rw [fieldCharStep, if_neg (by decide), if_neg (by decide), if_pos rfl]]
      rw [hfe]
      rfl
    | cons c0 cs =>
      have hch := not_needsQuotes_chars hff
      have hc0 := hch c0 (by rw [hfl]; exact List.mem_cons_self _ _)
      push_neg at hc0
      obtain ⟨hc1, hc2, _, hc4⟩ := hc0
      have hsp : isGoSpace c0 = false := not_needsQuotes_head hff c0 cs hfl
      rw [List.cons_append, csvRun]
      rw [show fieldCharStep c0 fields acc = (CsvMode.unquoted fields [c0], acc) by
        rw [fieldCharStep, if_neg (by simp [hsp]), if_neg hc2, if_neg hc1,
          if_neg hc4]]
      rw [csvRun_unquoted_scan cs (';' :: tl) fields [c0] acc
        (fun x hx => hch x (by rw [hfl]; exact List.mem_cons_of_mem c0 hx))]
      rw [csvRun, if_pos rfl]
      have : mkField (cs.reverse ++ [c0]) = f := by
        rw [mkField, List.reverse_append, List.reverse_reverse]
        rw [show [c0].reverse ++ cs = c0 :: cs by simp, ← hfl, mk_toList]
      rw [this]

theorem csvRun_field_nl (f : String) (tl : List Char) (fields : List String)
    (acc : List (List String)) :
    csvRun (writeField f ++ '\n' :: tl) (CsvMode.fieldStart fields) acc =
      csvRun tl CsvMode.recStart ((f :: fields).reverse :: acc) := by
  rw [writeField]
  by_cases hq : fieldNeedsQuotes f = true
  · rw [if_pos hq, List.cons_append, List.append_assoc, List.singleton_append]
    rw [csvRun]
    rw [show fieldCharStep '"' fields acc = (CsvMode.quoted fields [], acc) by
      rw [fieldCharStep, if_neg (by decide), if_pos rfl]]
    rw [csvRun_quoted_scan, List.append_nil]
    rw [csvRun, if_pos rfl]
    rw [csvRun, if_neg (by decide), if_neg (by decide), if_pos rfl, mkField_rev]
  · rw [if_neg hq]
    have hff : fieldNeedsQuotes f = false := (Bool.not_eq_true _).mp hq
    cases hfl : f.toList with
    | nil =>
      have hfe : f = "" := by rw [← mk_toList f, hfl]
      rw [List.nil_append, csvRun]
      rw [show fieldCharStep '\n' fields acc =
          (CsvMode.recStart, (mkField [] :: fields).reverse :: acc) by
        rw [fieldCharStep, if_neg (by decide), if_neg (by decide),
          if_neg (by decide), if_pos rfl]]
      rw [hfe]
      rfl
    | cons c0 cs =>
      have hch := not_needsQuotes_chars hff
      have hc0 := hch c0 (by rw [hfl]; exact List.mem_cons_self _ _)
      push_neg at hc0
      obtain ⟨hc1, hc2, _, hc4⟩ := hc0
      have hsp : isGoSpace c0 = false := not_needsQuotes_head hff c0 cs hfl
      rw [List.cons_append, csvRun]
      rw [show fieldCharStep c0 fields acc = (CsvMode.unquoted fields [c0], acc) by
        rw [fieldCharStep, if_neg (by simp [hsp]), if_neg hc2, if_neg hc1,
          if_neg hc4]]
      rw [csvRun_unquoted_scan cs ('\n' :: tl) fields [c0] acc
        (fun x hx => hch x (by rw [hfl]; exact List.mem_cons_of_mem c0 hx))]
      rw [csvRun, if_neg (by decide), if_pos rfl]
      have : mkField (cs.reverse ++ [c0]) = f := by
        rw [mkField, List.reverse_append, List.reverse_reverse]
        rw [show [c0].reverse ++ cs = c0 :: cs by simp, ← hfl, mk_toList]
      rw [this]

theorem csvRun_recStart_writeField (f : String) (x : Char) (xs : List Char)
    (hx : x ≠ '\n') (acc : List (List String)) :
    csvRun (writeField f ++ x :: xs) CsvMode.recStart acc =
      csvRun (writeField f ++ x :: xs) (CsvMode.fieldStart []) acc := by
  rw [writeField]
  by_cases hq : fieldNeedsQuotes f = true
  · rw [if_pos hq, List.cons_append]
    rw [csvRun, if_neg (by decide : ¬('"' : Char) = '\n')]
    rw [csvRun]
  · rw [if_neg hq]
    have hff : fieldNeedsQuotes f = false := (Bool.not_eq_true _).mp hq
    cases hfl : f.toList with
    | nil =>
      rw [List.nil_append, csvRun, if_neg hx, csvRun]
    | cons c0 cs =>
      have hc0 := not_needsQuotes_chars hff c0 (by rw [hfl]; exact List.mem_cons_self _ _)
      push_neg at hc0
      rw [List.cons_append, csvRun, if_neg hc0.2.2.2, csvRun]

theorem writeRecord4_expand (a b c d : String) :
    writeRecord [a, b, c, d] =
      writeField a ++ ';' :: (writeField b ++ ';' ::
        (writeField c ++ ';' :: (writeField d ++ ['\n']))) := by
  rw [writeRecord]
  simp [joinSemi, List.append_assoc]

/-- One 4-field record written by the writer parses back as that record, for
any field contents: the writer's quoting protects everything the parser is
sensitive to. -/
theorem csvRun_writeRecord (a b c d : String) (tl : List Char)
    (acc : List (List String)) :
    csvRun (writeRecord [a, b, c, d] ++ tl) CsvMode.recStart acc =
      csvRun tl CsvMode.recStart ([a, b, c, d] :: acc) := by
  rw [writeRecord4_expand]
  rw [List.append_assoc, List.cons_append]
  rw [csvRun_recStart_writeField a ';' _ (by decide)]
  rw [csvRun_field_semi]
  rw [List.append_assoc, List.cons_append]
  rw [csvRun_field_semi]
  rw [List.append_assoc, List.cons_append]
  rw [csvRun_field_semi]
  rw [List.append_assoc, List.singleton_append]
  rw [csvRun_field_nl]
  simp

/-- A CR immediately followed by LF somewhere in the list — the pattern the
reader's line normalization rewrites. -/
def hasCRLF : List Char → Bool
  | [] => false
  | [_] => false
  | c1 :: c2 :: rest =>
    (decide (c1 = '\r') && decide (c2 = '\n')) || hasCRLF (c2 :: rest)

theorem normCRLF_eq_self (l : List Char) (h : hasCRLF l = false) :
    normCRLF l = l := by
  induction l with
  | nil => rfl
  | cons c rest ih =>
    cases rest with
    | nil => rfl
    | cons c2 rest2 =>
      rw [hasCRLF, Bool.or_eq_false_iff] at h
      obtain ⟨h1, h2⟩ := h
      have hcond : ¬(c = '\r' ∧ c2 = '\n') := by
        intro hcc
        rw [hcc.1, hcc.2] at h1
        simp at h1
      rw [normCRLF, if_neg hcond, ih h2]

theorem hasCRLF_cons (c : Char) (l : List Char)
    (h : c ≠ '\r' ∨ l.head? ≠ some '\n') : hasCRLF (c :: l) = hasCRLF l := by
  cases l with
  | nil => rfl
  | cons c2 rest =>
    rw [hasCRLF]
    have hfalse : (decide (c = '\r') && decide (c2 = '\n')) = false := by
      rcases h with h | h
      · simp [h]
      · simp only [List.head?_cons] at h
        have : c2 ≠ '\n' := fun he => h (by rw [he])
        simp [this]
    rw [hfalse, Bool.false_or]

theorem hasCRLF_append (a : List Char) :
    ∀ b : List Char, hasCRLF a = false → hasCRLF b = false →
      (a.getLast? = some '\r' → b.head? ≠ some '\n') →
      hasCRLF (a ++ b) = false := by
  induction a with
  | nil => intro b _ hb _; simpa using hb
  | cons c rest ih =>
    intro b ha hb hcross
    cases rest with
    | nil =>
      rw [List.singleton_append, hasCRLF_cons c b ?_]
      · exact hb
      · by_cases hc : c = '\r'
        · exact Or.inr (hcross (by rw [hc]; rfl))
        · exact Or.inl hc
    | cons c2 rest2 =>
      rw [hasCRLF, Bool.or_eq_false_iff] at ha
      obtain ⟨h1, h2⟩ := ha
      rw [List.cons_append, List.cons_append, hasCRLF, ← List.cons_append]
      rw [ih b h2 hb (fun hl => hcross (by rw [List.getLast?_cons_cons]; exact hl))]
      rw [h1]
      rfl

theorem no_nl_no_crlf (l : List Char) (h : '\n' ∉ l) : hasCRLF l = false := by
  induction l with
  | nil => rfl
  | cons c rest ih =>
    rw [List.mem_cons, not_or] at h
    cases rest with
    | nil => rfl
    | cons c2 rest2 =>
      rw [hasCRLF]
      have hc2 : c2 ≠ '\n' := by
        intro he
        exact h.2 (by rw [he]; exact List.mem_cons_self _ _)
      have : decide (c2 = '\n') = false := decide_eq_false hc2
      rw [this, Bool.and_false, Bool.false_or]
      exact ih h.2

theorem getLast?_mem_of {α : Type} : ∀ (l : List α) (a : α),
    l.getLast? = some a → a ∈ l := by
  intro l
  induction l with
  | nil => intro a h; simp at h
  | cons c rest ih =>
    intro a h
    cases rest with
    | nil =>
      simp only [List.getLast?_singleton, Option.some.injEq] at h
      rw [h]
      exact List.mem_cons_self _ _
    | cons c2 rest2 =>
      rw [List.getLast?_cons_cons] at h
      exact List.mem_cons_of_mem c (ih a h)

theorem writeField_getLast_ne_cr (f : String) :
    (writeField f).getLast? ≠ some '\r' := by
  rw [writeField]
  by_cases hq : fieldNeedsQuotes f = true
  · rw [if_pos hq]
    rw [show ('"' :: (escapeQuoted f.toList ++ ['"'])) =
        ('"' :: escapeQuoted f.toList) ++ ['"'] by simp]
    rw [List.getLast?_concat]
    simp
  · rw [if_neg hq]
    intro hcon
    have hr : '\r' ∈ f.toList := getLast?_mem_of f.toList '\r' hcon
    have := not_needsQuotes_chars ((Bool.not_eq_true _).mp hq) '\r' hr
    exact this (by tauto)

theorem writeRecord4_no_crlf (a b c d : String)
    (ha : '\n' ∉ a.toList) (hb : '\n' ∉ b.toList)
    (hc : '\n' ∉ c.toList) (hd : '\n' ∉ d.toList) :
    hasCRLF (writeRecord [a, b, c, d]) = false := by
  rw [writeRecord4_expand]
  have step : ∀ (f : String) (x : List Char), '\n' ∉ f.toList →
      hasCRLF x = false → hasCRLF (writeField f ++ ';' :: x) = false := by
    intro f x hf hx
    apply hasCRLF_append
    · exact no_nl_no_crlf _ (writeField_no_nl f hf)
    · rw [hasCRLF_cons ';' x (Or.inl (by decide))]
      exact hx
    · intro hl
      exact absurd hl (writeField_getLast_ne_cr f)
  apply step a _ ha
  apply step b _ hb
  apply step c _ hc
  apply hasCRLF_append
  · exact no_nl_no_crlf _ (writeField_no_nl d hd)
  · rfl
  · intro hl
    exact absurd hl (writeField_getLast_ne_cr d)

theorem cleanF_no_nl {s : String} (h : cleanF s = true) : '\n' ∉ s.toList := by
  intro hmem
  have := List.all_eq_true.mp h '\n' hmem
  simp at this

/-- For a map that is the identity on every element of the list. -/
theorem map_id_on {α : Type} (f : α → α) :
    ∀ l : List α, (∀ c ∈ l, f c = c) → l.map f = l := by
  intro l
  induction l with
  | nil => intro _; rfl
  | cons c rest ih =>
    intro h
    rw [List.map_cons, h c (List.mem_cons_self _ _),
      ih (fun x hx => h x (List.mem_cons_of_mem c hx))]

theorem sanitize_id (s : String) (h : cleanF s = true) : sanitizeField s = s := by
  have hdata : (sanitizeField s).toList = s.toList := by
    rw [sanitizeField_toList]
    apply map_id_on
    intro c hc
    have := List.all_eq_true.mp h c hc
    simp only [decide_eq_true_eq] at this
    simp [this.1, this.2]
  rw [← mk_toList (sanitizeField s), hdata, mk_toList]

/-- Claim C9: writing a quote whose four fields contain no `;` and no
newline (so the sanitization is the identity) after the header row, and
re-reading the resulting file with the csv reader, reproduces exactly that
quote. -/
theorem csv_roundtrip (q : Quote)
    (hT : cleanF q.Text = true) (hA : cleanF q.Author = true)
    (hB : cleanF q.ContextBefore = true) (hC : cleanF q.ContextAfter = true) :
    readQuotesFromCSV (initCSVString ++ appendToCSVString [q]) = some [q] := by
  have hq : quoteLine q =
      writeRecord [q.Text, q.Author, q.ContextBefore, q.ContextAfter] := by
    rw [quoteLine, sanitize_id _ hT, sanitize_id _ hA, sanitize_id _ hB,
      sanitize_id _ hC]
  have h1 : initCSVString.toList =
      writeRecord ["\uFEFFЦитата", "Автор", "Контекст (До)", "Контекст (После)"] := by
    decide
  have h2 : (appendToCSVString [q]).toList = quoteLine q := by
    show ([q].map quoteLine).flatten = quoteLine q
    simp
  have hcontent : (initCSVString ++ appendToCSVString [q]).toList =
      writeRecord ["\uFEFFЦитата", "Автор", "Контекст (До)", "Контекст (После)"] ++
        writeRecord [q.Text, q.Author, q.ContextBefore, q.ContextAfter] := by
    rw [toList_append, h1, h2, hq]
  have hnocrlf : hasCRLF ((initCSVString ++ appendToCSVString [q]).toList) = false := by
    rw [hcontent]
    apply hasCRLF_append
    · decide
    · exact writeRecord4_no_crlf _ _ _ _ (cleanF_no_nl hT) (cleanF_no_nl hA)
        (cleanF_no_nl hB) (cleanF_no_nl hC)
    · intro hl
      have hend : (writeRecord
          ["\uFEFFЦитата", "Автор", "Контекст (До)", "Контекст (После)"]).getLast?
          = some '\n' := by decide
      rw [hend] at hl
      simp at hl
  rw [readQuotesFromCSV, parseCSV, normCRLF_eq_self _ hnocrlf, hcontent]
  rw [csvRun_writeRecord]
  rw [← List.append_nil
    (writeRecord [q.Text, q.Author, q.ContextBefore, q.ContextAfter])]
  rw [csvRun_writeRecord]
  simp [csvRun, readQuotesRecords, recToQuote]

/-- Witness for `csv_roundtrip` at a concrete quote. -/
theorem csv_roundtrip_witness :
    readQuotesFromCSV (initCSVString ++ appendToCSVString [⟨"a", "b", "c", "d"⟩]) =
      some [⟨"a", "b", "c", "d"⟩] :=
  csv_roundtrip ⟨"a", "b", "c", "d"⟩ (by decide) (by decide) (by decide) (by decide)

end QCVS
